import Mathlib

/-! wireguard-go-wrapper: the command tokenizer, the flag validator and Run

A shallow embedding of `parseCommandLine`, `validateFlags`, `Flags.setup` and
`Instance.Run` of `wg.go`.  `Run` is sequential state passing; the goroutine
and the channel of the cancellation are not part of it.

A Go string is a sequence of bytes.  Bytes are natural numbers (the values a
Go `byte` takes are those below 256); where a statement needs ASCII input it
says so with an explicit bound.
-/

namespace WG

/-- A Go string: its bytes in order. -/
abbrev GoString := List Nat

/-- The bytes of an ASCII literal. -/
def ascii (s : String) : GoString := s.toList.map Char.toNat

/-- Go's conversion `string(c)` of a byte `c`: the UTF-8 encoding of the code
point with number `c`, one byte below 0x80 and two bytes from 0x80 on. -/
def byteToString (c : Nat) : GoString :=
  if c < 0x80 then [c] else [0xC0 + c / 64, 0x80 + c % 64]

/-- The three values the variable `state` of `parseCommandLine` takes:
`"start"`, `"arg"` and `"quotes"`. -/
inductive State where
  | start
  | arg
  | quotes
  deriving DecidableEq, Repr

/-- The local variables of `parseCommandLine` that the loop updates. -/
structure Vars where
  args : List GoString
  state : State
  current : GoString
  quote : GoString
  escapeNext : Bool
  deriving DecidableEq, Repr

/-- The values before the loop: `args` nil, `state := "start"`,
`current := ""`, `quote := "\""`, `escapeNext := true`. -/
def Vars.init : Vars :=
  { args := [], state := State.start, current := [], quote := [0x22], escapeNext := true }

/-- One iteration of the loop body of `parseCommandLine` on the byte `c`. -/
def step (l : Vars) (c : Nat) : Vars :=
  if l.state = State.quotes then
    if byteToString c ≠ l.quote then
      { l with current := l.current ++ byteToString c }
    else
      { l with args := l.args ++ [l.current], current := [], state := State.start }
  else if l.escapeNext = true then
    { l with current := l.current ++ byteToString c, escapeNext := false }
  else if c = 0x5C then
    { l with escapeNext := true }
  else if c = 0x22 ∨ c = 0x27 then
    { l with state := State.quotes, quote := byteToString c }
  else if l.state = State.arg then
    if c = 0x20 ∨ c = 0x09 then
      { l with args := l.args ++ [l.current], current := [], state := State.start }
    else
      { l with current := l.current ++ byteToString c }
  else if c ≠ 0x20 ∧ c ≠ 0x09 then
    { l with state := State.arg, current := l.current ++ byteToString c }
  else
    l

/-- The message of the error of an unclosed quote:
`fmt.Errorf("unclosed quote in command line: %s", command)`. -/
def unclosedQuoteMsg (command : GoString) : GoString :=
  ascii "unclosed quote in command line: " ++ command

/-- The statements after the loop of `parseCommandLine`: the returned pair of
the token list and the error (`none` for `nil`, else its message). -/
def finish (command : GoString) (l : Vars) : List GoString × Option GoString :=
  if l.state = State.quotes then
    ([], some (unclosedQuoteMsg command))
  else if l.current ≠ [] then
    (l.args ++ [l.current], none)
  else
    (l.args, none)

/-- The function `parseCommandLine`: the loop over the bytes of `command`,
then the final statements. -/
def parseCommandLine (command : GoString) : List GoString × Option GoString :=
  finish command (command.foldl step Vars.init)

/-- A plain byte: ASCII and none of space, tab, double quote, single quote
and backslash. -/
def plainByte (c : Nat) : Prop :=
  c < 0x80 ∧ c ≠ 0x20 ∧ c ≠ 0x09 ∧ c ≠ 0x22 ∧ c ≠ 0x27 ∧ c ≠ 0x5C

instance (c : Nat) : Decidable (plainByte c) := by
  unfold plainByte; infer_instance

/-- A plain word: all of its bytes are plain. -/
def plain (w : GoString) : Prop := ∀ c ∈ w, plainByte c

instance (w : GoString) : Decidable (plain w) := by
  unfold plain; infer_instance

/-- An ASCII string: all of its bytes are below 0x80. -/
def isAscii (s : GoString) : Prop := ∀ c ∈ s, c < 0x80

instance (s : GoString) : Decidable (isAscii s) := by
  unfold isAscii; infer_instance

/-- What appending `string(c)` for each byte `c` of `s` in turn builds. -/
def encode : GoString → GoString
  | [] => []
  | c :: cs => byteToString c ++ encode cs

/-- The strings of `ts` joined by single spaces, as `strings.Join(ts, " ")`. -/
def joinSpaces : List GoString → GoString
  | [] => []
  | [t] => t
  | t :: u :: ts => t ++ 0x20 :: joinSpaces (u :: ts)

/-- The maximal runs of non-whitespace bytes of `s`, in order, space and tab
being the whitespace: the tokens the specification gives a command without
quotes and backslashes. -/
def fields (s : GoString) : List GoString :=
  (s.splitOnP (fun c => c == 0x20 || c == 0x09)).filter (fun t => t ≠ [])

/-- The string has two adjacent identical quote characters, `""` or two single
quotes. -/
def AdjacentQuotes (s : GoString) : Prop :=
  ∃ pre q post, (q = 0x22 ∨ q = 0x27) ∧ s = pre ++ q :: q :: post

/-- The first token, or `current` while no token is complete, begins with `p`. -/
def BeginsWith (p : GoString) (l : Vars) : Prop :=
  (∃ t ts r, l.args = t :: ts ∧ t = p ++ r) ∨ (l.args = [] ∧ ∃ r, l.current = p ++ r)

/-- The invariant of the loop after the bytes `pre`: an empty token has been
appended only if `pre` has two adjacent identical quote characters; in state
`"arg"` the variable `current` is not empty; in state `"quotes"` with `current`
empty the last byte was the opening quote character. -/
def EmptyInv (pre : GoString) (l : Vars) : Prop :=
  ([] ∈ l.args → AdjacentQuotes pre)
  ∧ (l.state = State.arg → l.current ≠ [])
  ∧ (l.state = State.quotes → l.current = [] →
      ∃ p q, (q = 0x22 ∨ q = 0x27) ∧ pre = p ++ [q] ∧ l.quote = [q])

/-! ## The flag validator -/

/-- The struct `Flags`. -/
structure Flags where
  Verbose : Bool
  BindAddress : GoString
  Endpoint : GoString
  License : GoString
  Country : GoString
  PsiphonEnabled : Bool
  Gool : Bool
  Scan : Bool
  Rtt : Int
  deriving DecidableEq, Repr

/-- The map `validCountryCodes`, a `map[string]bool`, as the list of its
entries in the order of the source. -/
def validCountryCodes : List (GoString × Bool) :=
  [(ascii "AT", true), (ascii "BE", true), (ascii "BG", true), (ascii "BR", true),
   (ascii "CA", true), (ascii "CH", true), (ascii "CZ", true), (ascii "DE", true),
   (ascii "DK", true), (ascii "EE", true), (ascii "ES", true), (ascii "FI", true),
   (ascii "FR", true), (ascii "GB", true), (ascii "HU", true), (ascii "IE", true),
   (ascii "IN", true), (ascii "IT", true), (ascii "JP", true), (ascii "LV", true),
   (ascii "NL", true), (ascii "NO", true), (ascii "PL", true), (ascii "RO", true),
   (ascii "RS", true), (ascii "SE", true), (ascii "SG", true), (ascii "SK", true),
   (ascii "UA", true), (ascii "US", true)]

/-- Go's index expression `m[k]` on a `map[string]bool`: the value stored
under `k`, and `false` when the map has no key `k`. -/
def mapIndex (m : List (GoString × Bool)) (k : GoString) : Bool :=
  match m.lookup k with
  | some b => b
  | none => false

/-- The errors of `validateFlags`, one for each `fmt.Errorf` of the function,
with the field its message is formatted with:
"invalid bindAddress format: %s", "invalid warp clean IP: %s",
"if Psiphon is enabled, country code must be provided" and
"invalid country code: %s. valid country codes: %s".  The last message also
lists the keys of `validCountryCodes` in the order of a Go map iteration, which
the language leaves unspecified; that list is not part of the model. -/
inductive ValidateError where
  | invalidBindAddress (bindAddress : GoString)
  | invalidEndpoint (endpoint : GoString)
  | missingCountry
  | invalidCountry (country : GoString)
  deriving DecidableEq, Repr

/-- The function `validateFlags`; `none` is the result `nil`.  The two library
functions it calls are parameters: `resolveTCPAddr a` tells whether
`net.ResolveTCPAddr("tcp", a)` returns a nil error, and `parseIP e` whether
`net.ParseIP(e)` returns a non-nil address. -/
def validateFlags (resolveTCPAddr parseIP : GoString → Bool) (f : Flags) :
    Option ValidateError :=
  if resolveTCPAddr f.BindAddress = false then
    some (ValidateError.invalidBindAddress f.BindAddress)
  else if parseIP f.Endpoint = false then
    some (ValidateError.invalidEndpoint f.Endpoint)
  else if f.PsiphonEnabled = true ∧ f.Country = [] then
    some ValidateError.missingCountry
  else if f.PsiphonEnabled = true ∧ mapIndex validCountryCodes f.Country = false then
    some (ValidateError.invalidCountry f.Country)
  else
    none

/-! ## Delimiters -/

/-- The bytes the loop of `parseCommandLine` tests for: space, tab, double
quote, single quote and backslash. -/
def isDelimiter (c : Nat) : Prop :=
  c = 0x20 ∨ c = 0x09 ∨ c = 0x22 ∨ c = 0x27 ∨ c = 0x5C

instance (c : Nat) : Decidable (isDelimiter c) := by
  unfold isDelimiter; infer_instance

/-- No byte of the string is a delimiter. -/
def noDelimiter (s : GoString) : Prop := ∀ c ∈ s, ¬ isDelimiter c

instance (s : GoString) : Decidable (noDelimiter s) := by
  unfold noDelimiter; infer_instance

/-- The relation `DeletesOnly cmd out`: the string `out` is `cmd` with some of
its delimiter bytes deleted; every other byte is kept, once and in its
place. -/
inductive DeletesOnly : GoString → GoString → Prop where
  | nil : DeletesOnly [] []
  | keep (c : Nat) {cs out : GoString} : DeletesOnly cs out → DeletesOnly (c :: cs) (c :: out)
  | drop {c : Nat} {cs out : GoString} :
      isDelimiter c → DeletesOnly cs out → DeletesOnly (c :: cs) out

/-- The invariant of the loop after the bytes `pre` of an ASCII command: the
tokens so far followed by `current` are `pre` with delimiters deleted, and
`quote` holds a quote character. -/
def KeepInv (pre : GoString) (l : Vars) : Prop :=
  DeletesOnly pre (l.args.flatten ++ l.current) ∧ (l.quote = [0x22] ∨ l.quote = [0x27])

/-- The invariant of the loop after the bytes `pre` of any command: the tokens
so far followed by `current` are `encode kept` for a string `kept` that is
`pre` with delimiters deleted, and `quote` holds a quote character. -/
def EncodeInv (pre : GoString) (l : Vars) : Prop :=
  (∃ kept, DeletesOnly pre kept ∧ l.args.flatten ++ l.current = encode kept)
  ∧ (l.quote = [0x22] ∨ l.quote = [0x27])

/-! ## The function Run -/

/-- The map `validFlags`, a `map[string]bool`, as the list of its entries in
the order of the source.  No function of the file reads it. -/
def validFlags : List (GoString × Bool) :=
  [(ascii "-v", true), (ascii "-b", true), (ascii "-e", true), (ascii "-k", true),
   (ascii "-country", true), (ascii "-cfon", true), (ascii "-gool", true),
   (ascii "-scan", true), (ascii "-rtt", true)]

/-- The names `setup` defines on the global flag set, in the order of its
calls of `flag.BoolVar`, `flag.StringVar` and `flag.IntVar`. -/
def flagNames : List GoString :=
  [ascii "v", ascii "b", ascii "e", ascii "k", ascii "country", ascii "cfon",
   ascii "gool", ascii "scan", ascii "rtt"]

/-- The default values `setup` gives the fields of `Flags` in those calls. -/
def defaultFlags : Flags :=
  { Verbose := false, BindAddress := ascii "127.0.0.1:8086", Endpoint := ascii "notset",
    License := ascii "notset", Country := [], PsiphonEnabled := false, Gool := false,
    Scan := false, Rtt := 1000 }

/-- The option arguments of a call of `app.RunWarp`, in the order of the call
at the end of `Run`.  The context argument, which comes between the license and
the round-trip time, belongs to the cancellation and is left out. -/
structure WarpArgs where
  psiphonEnabled : Bool
  gool : Bool
  scan : Bool
  verbose : Bool
  country : GoString
  bindAddress : GoString
  endpoint : GoString
  license : GoString
  rtt : Int
  deriving DecidableEq, Repr

/-- The arguments `Run` passes to `app.RunWarp` for the flags `f`. -/
def warpArgs (f : Flags) : WarpArgs :=
  ⟨f.PsiphonEnabled, f.Gool, f.Scan, f.Verbose, f.Country, f.BindAddress, f.Endpoint,
    f.License, f.Rtt⟩

/-- The struct `Instance`; its channel `done` belongs to the cancellation and is
left out. -/
structure Instance where
  args : GoString
  deriving DecidableEq, Repr

/-- The state of the process that `Run` reads and writes: the variable
`os.Args`, the names of the flags defined on the global flag set
`flag.CommandLine`, and the calls of `app.RunWarp` made so far, oldest
first. -/
structure World where
  osArgs : List GoString
  defined : List GoString
  calls : List WarpArgs
  deriving DecidableEq, Repr

/-- What the statement `flag.Parse()` can do: it has no result, so it either
comes back, having set the fields of `Flags`, or ends the process with an exit
status, as the global flag set, made with `flag.ExitOnError`, does on an
argument it rejects. -/
inductive ParseOutcome where
  | parsed (f : Flags)
  | exited (status : Nat)
  deriving DecidableEq, Repr

/-- The functions of other packages that `Run` calls, taken as given:
`net.ResolveTCPAddr` and `net.ParseIP` as in `validateFlags`; `flagParse a d`
for `flag.Parse()` on the arguments `a` (which are `os.Args[1:]`) with the
fields of `Flags` holding the defaults `d`; `runWarp` for `app.RunWarp`, its
result `none` for nil, with errors of the type `E`. -/
structure Env (E : Type) where
  resolveTCPAddr : GoString → Bool
  parseIP : GoString → Bool
  flagParse : List GoString → Flags → ParseOutcome
  runWarp : WarpArgs → Option E

/-- The error values `Run` returns: `parse msg` is
`fmt.Errorf("parse error: %v", err)` for the tokenizer error with message
`msg`, `validation e` is `fmt.Errorf("validatrion error: %v", err)` for the
error `e` of `validateFlags`, and `collaborator e` is the error `e` of
`app.RunWarp` itself, returned as it is. -/
inductive RunError (E : Type) where
  | parse (msg : GoString)
  | validation (e : ValidateError)
  | collaborator (e : E)
  deriving DecidableEq, Repr

/-- How a call of `Run` ends: it returns (`none` for nil), or the process
exits inside `flag.Parse()`, or a call that defines a flag panics because the
name is defined already. -/
inductive Outcome (E : Type) where
  | returned (err : Option (RunError E))
  | exited (status : Nat)
  | panicked (name : GoString)
  deriving DecidableEq, Repr

/-- Defining the flags `names` one after the other on a flag set on which
`defined` are defined: the names defined afterwards, and the name whose
definition panicked, if one did (the flag package panics on a name that is
defined already). -/
def register (defined : List GoString) : List GoString → List GoString × Option GoString
  | [] => (defined, none)
  | n :: ns => if n ∈ defined then (defined, some n) else register (defined ++ [n]) ns

/-- How `setup` ends. -/
inductive SetupResult where
  | done (f : Flags)
  | exited (status : Nat)
  | panicked (name : GoString)
  deriving DecidableEq, Repr

/-- The method `Flags.setup`: the nine flags are defined on the global flag
set with their defaults, then `flag.Parse()` parses `os.Args[1:]`. -/
def setup (flagParse : List GoString → Flags → ParseOutcome) (w : World) :
    World × SetupResult :=
  match register w.defined flagNames with
  | (d, some n) => ({ w with defined := d }, SetupResult.panicked n)
  | (d, none) =>
    match flagParse (w.osArgs.drop 1) defaultFlags with
    | ParseOutcome.exited status => ({ w with defined := d }, SetupResult.exited status)
    | ParseOutcome.parsed f => ({ w with defined := d }, SetupResult.done f)

/-- The method `Instance.Run`, without the goroutine that waits for `done`. -/
def Run {E : Type} (env : Env E) (i : Instance) (w : World) : World × Outcome E :=
  match parseCommandLine (ascii "run " ++ i.args) with
  | (_, some msg) => (w, Outcome.returned (some (RunError.parse msg)))
  | (argsNew, none) =>
    match setup env.flagParse { w with osArgs := argsNew } with
    | (w1, SetupResult.panicked n) => (w1, Outcome.panicked n)
    | (w1, SetupResult.exited status) => (w1, Outcome.exited status)
    | (w1, SetupResult.done f) =>
      match validateFlags env.resolveTCPAddr env.parseIP f with
      | some e => (w1, Outcome.returned (some (RunError.validation e)))
      | none =>
        match env.runWarp (warpArgs f) with
        | some e =>
          ({ w1 with calls := w1.calls ++ [warpArgs f] },
            Outcome.returned (some (RunError.collaborator e)))
        | none => ({ w1 with calls := w1.calls ++ [warpArgs f] }, Outcome.returned none)

/-- An environment for the examples.  On the arguments the examples use its
functions give what Go's give: the address `127.0.0.1:8086` resolves, `1.1.1.1`
is an IP and `notset` is not; `flag.Parse()` leaves the defaults with no
argument, sets `Endpoint` for `-e` with a value, and exits with status 2 on the
undefined flag `-x`; the collaborator returns nil. -/
def exampleEnv : Env Unit where
  resolveTCPAddr := fun a => decide (a = ascii "127.0.0.1:8086")
  parseIP := fun e => decide (e = ascii "1.1.1.1")
  flagParse := fun a d =>
    match a with
    | [] => ParseOutcome.parsed d
    | [o, v] =>
      if o = ascii "-e" then ParseOutcome.parsed { d with Endpoint := v }
      else ParseOutcome.exited 2
    | _ => ParseOutcome.exited 2
  runWarp := fun _ => none

/-! ## The loop on runs of bytes -/

theorem byteToString_ascii {c : Nat} (h : c < 0x80) : byteToString c = [c] := by
  simp [byteToString, h]

theorem byteToString_ne_nil (c : Nat) : byteToString c ≠ [] := by
  unfold byteToString; split <;> simp

theorem byteToString_eq_singleton {c q : Nat} (h : byteToString c = [q]) : c = q := by
  unfold byteToString at h
  split at h
  · simpa using h
  · simp at h

theorem encode_ascii {s : GoString} (h : isAscii s) : encode s = s := by
  induction s with
  | nil => rfl
  | cons c cs ih =>
    have hc : c < 0x80 := h c (List.mem_cons_self _ _)
    have hcs : isAscii cs := fun d hd => h d (List.mem_cons_of_mem _ hd)
    simp [encode, byteToString_ascii hc, ih hcs]

theorem plain_isAscii {w : GoString} (h : plain w) : isAscii w :=
  fun c hc => (h c hc).1

theorem step_init (c : Nat) :
    step Vars.init c = ⟨[], State.start, byteToString c, [0x22], false⟩ := by
  simp [step, Vars.init]

theorem step_escaped (a : List GoString) (st : State) (cur q : GoString) (c : Nat)
    (hst : st ≠ State.quotes) :
    step ⟨a, st, cur, q, true⟩ c = ⟨a, st, cur ++ byteToString c, q, false⟩ := by
  simp [step, hst]

theorem step_backslash (a : List GoString) (st : State) (cur q : GoString)
    (hst : st ≠ State.quotes) :
    step ⟨a, st, cur, q, false⟩ 0x5C = ⟨a, st, cur, q, true⟩ := by
  simp [step, hst]

theorem step_start_plain (a : List GoString) (cur q : GoString) {c : Nat}
    (h : plainByte c) :
    step ⟨a, State.start, cur, q, false⟩ c = ⟨a, State.arg, cur ++ [c], q, false⟩ := by
  obtain ⟨h1, h2, h3, h4, h5, h6⟩ := h
  simp [step, byteToString_ascii h1, h2, h3, h4, h5, h6]

theorem step_arg_plain (a : List GoString) (cur q : GoString) {c : Nat}
    (h : plainByte c) :
    step ⟨a, State.arg, cur, q, false⟩ c = ⟨a, State.arg, cur ++ [c], q, false⟩ := by
  obtain ⟨h1, h2, h3, h4, h5, h6⟩ := h
  simp [step, byteToString_ascii h1, h2, h3, h4, h5, h6]

theorem step_arg_space (a : List GoString) (cur q : GoString) :
    step ⟨a, State.arg, cur, q, false⟩ 0x20 = ⟨a ++ [cur], State.start, [], q, false⟩ := by
  simp [step]

theorem step_open_quote (a : List GoString) (st : State) (cur q0 : GoString) {q : Nat}
    (hst : st ≠ State.quotes) (hq : q = 0x22 ∨ q = 0x27) :
    step ⟨a, st, cur, q0, false⟩ q = ⟨a, State.quotes, cur, [q], false⟩ := by
  rcases hq with rfl | rfl <;> simp [step, hst, byteToString]

theorem step_close_quote (a : List GoString) (cur : GoString) (e : Bool) {q : Nat}
    (hq : q < 0x80) :
    step ⟨a, State.quotes, cur, [q], e⟩ q = ⟨a ++ [cur], State.start, [], [q], e⟩ := by
  simp [step, byteToString_ascii hq]

theorem foldl_arg_plain (w : GoString) (h : plain w) (a : List GoString)
    (cur q : GoString) :
    w.foldl step ⟨a, State.arg, cur, q, false⟩ = ⟨a, State.arg, cur ++ w, q, false⟩ := by
  induction w generalizing cur with
  | nil => simp
  | cons c cs ih =>
    have hc : plainByte c := h c (List.mem_cons_self _ _)
    have hcs : plain cs := fun d hd => h d (List.mem_cons_of_mem _ hd)
    rw [List.foldl_cons, step_arg_plain a cur q hc, ih hcs]
    simp

theorem foldl_quotes (s : GoString) {q : Nat} (h : q ∉ s) (a : List GoString)
    (cur : GoString) (e : Bool) :
    s.foldl step ⟨a, State.quotes, cur, [q], e⟩
      = ⟨a, State.quotes, cur ++ encode s, [q], e⟩ := by
  induction s generalizing cur with
  | nil => simp [encode]
  | cons c cs ih =>
    have hc : byteToString c ≠ [q] := by
      intro hEq
      exact h (by rw [byteToString_eq_singleton hEq]; exact List.mem_cons_self _ _)
    have hcs : q ∉ cs := fun hd => h (List.mem_cons_of_mem _ hd)
    rw [List.foldl_cons]
    have hstep : step ⟨a, State.quotes, cur, [q], e⟩ c
        = ⟨a, State.quotes, cur ++ byteToString c, [q], e⟩ := by
      simp [step, hc]
    rw [hstep, ih hcs]
    simp [encode]

/-- A plain word of at least two bytes at the start of the command: the loop
ends in state `"arg"` with the word in `current`. -/
theorem foldl_init_word (w : GoString) (h : plain w) (h2 : 2 ≤ w.length) :
    w.foldl step Vars.init = ⟨[], State.arg, w, [0x22], false⟩ := by
  match w, h, h2 with
  | c0 :: c1 :: cs, h, _ =>
    have h0 : plainByte c0 := h c0 (by simp)
    have h1 : plainByte c1 := h c1 (by simp)
    have hcs : plain cs := fun d hd => h d (by simp [hd])
    rw [List.foldl_cons, step_init, List.foldl_cons, byteToString_ascii h0.1,
      step_start_plain [] [c0] [0x22] h1, foldl_arg_plain cs hcs]
    simp

/-- Plain bytes outside quotes, with no escape pending: they are appended to
`current`, and the state stays outside quotes. -/
theorem foldl_plain (w : GoString) (h : plain w) (a : List GoString) (st : State)
    (cur q : GoString) (hst : st ≠ State.quotes) :
    ∃ st1, st1 ≠ State.quotes ∧
      w.foldl step ⟨a, st, cur, q, false⟩ = ⟨a, st1, cur ++ w, q, false⟩ := by
  cases w with
  | nil => exact ⟨st, hst, by simp⟩
  | cons c cs =>
    have hc : plainByte c := h c (List.mem_cons_self _ _)
    have hcs : plain cs := fun d hd => h d (List.mem_cons_of_mem _ hd)
    refine ⟨State.arg, by decide, ?_⟩
    cases st with
    | quotes => exact absurd rfl hst
    | start =>
      rw [List.foldl_cons, step_start_plain a cur q hc, foldl_arg_plain cs hcs]
      simp
    | arg =>
      rw [List.foldl_cons, step_arg_plain a cur q hc, foldl_arg_plain cs hcs]
      simp

/-- After a plain word of at least two bytes, a space and an opening quote. -/
theorem foldl_word_space_quote (w : GoString) (q : Nat) (hw : plain w)
    (hw2 : 2 ≤ w.length) (hq : q = 0x22 ∨ q = 0x27) :
    (w ++ [0x20] ++ [q]).foldl step Vars.init
      = ⟨[w], State.quotes, [], [q], false⟩ := by
  simp only [List.foldl_append, List.foldl_cons, List.foldl_nil]
  rw [foldl_init_word w hw hw2, step_arg_space,
    step_open_quote _ _ _ _ (by decide) hq]
  simp

theorem quote_lt {q : Nat} (hq : q = 0x22 ∨ q = 0x27) : q < 0x80 := by
  rcases hq with rfl | rfl <;> decide

/-! ## Quoted tokens -/

/-- C2: a plain word of at least two bytes, a space, and an ASCII string `s`
between two quote characters `q` that `s` does not contain: the tokens are the
word and `s`, taken literally and without the quote characters. -/
theorem parseCommandLine_quoted (w s : GoString) (q : Nat) (hw : plain w)
    (hw2 : 2 ≤ w.length) (hq : q = 0x22 ∨ q = 0x27) (hs : isAscii s) (hqs : q ∉ s) :
    parseCommandLine (w ++ [0x20] ++ [q] ++ s ++ [q]) = ([w, s], none) := by
  unfold parseCommandLine
  rw [List.foldl_append, List.foldl_append, foldl_word_space_quote w q hw hw2 hq,
    foldl_quotes s hqs, List.foldl_cons, List.foldl_nil,
    step_close_quote _ _ _ (quote_lt hq)]
  simp [finish, encode_ascii hs]

theorem parseCommandLine_quoted_witness :
    (plain (ascii "-k") ∧ 2 ≤ (ascii "-k").length ∧ isAscii (ascii "my key")
        ∧ 0x27 ∉ ascii "my key")
      ∧ parseCommandLine (ascii "-k" ++ [0x20] ++ [0x27] ++ ascii "my key" ++ [0x27])
        = ([ascii "-k", ascii "my key"], none) :=
  ⟨by decide, parseCommandLine_quoted (ascii "-k") (ascii "my key") 0x27 (by decide)
    (by decide) (Or.inr rfl) (by decide) (by decide)⟩

/-- C3: a plain word of at least two bytes, a space, a quote character `q` and
a string without `q`: the call fails, it returns the empty token list and the
error "unclosed quote in command line: " followed by the command. -/
theorem parseCommandLine_unclosed (w s : GoString) (q : Nat) (hw : plain w)
    (hw2 : 2 ≤ w.length) (hq : q = 0x22 ∨ q = 0x27) (hqs : q ∉ s) :
    parseCommandLine (w ++ [0x20] ++ [q] ++ s)
      = ([], some (ascii "unclosed quote in command line: " ++ (w ++ [0x20] ++ [q] ++ s))) := by
  unfold parseCommandLine
  rw [List.foldl_append, foldl_word_space_quote w q hw hw2 hq, foldl_quotes s hqs]
  simp [finish, unclosedQuoteMsg]

theorem parseCommandLine_unclosed_witness :
    (plain (ascii "-k") ∧ 2 ≤ (ascii "-k").length ∧ 0x22 ∉ ascii "unterminated")
      ∧ parseCommandLine (ascii "-k" ++ [0x20] ++ [0x22] ++ ascii "unterminated")
        = ([], some (ascii "unclosed quote in command line: "
            ++ (ascii "-k" ++ [0x20] ++ [0x22] ++ ascii "unterminated"))) :=
  ⟨by decide, parseCommandLine_unclosed (ascii "-k") (ascii "unterminated") 0x22
    (by decide) (by decide) (Or.inl rfl) (by decide)⟩

/-! ## The backslash -/

/-- C4: a non-empty plain word `u`, a backslash, any ASCII byte `c` and a plain
word `v`: the only token is `u ++ [c] ++ v`; the byte after the backslash is
appended as it is and the backslash is dropped. -/
theorem parseCommandLine_escape (u v : GoString) (c : Nat) (hu : plain u)
    (hu1 : u ≠ []) (hv : plain v) (hc : c < 0x80) :
    parseCommandLine (u ++ [0x5C] ++ [c] ++ v) = ([u ++ [c] ++ v], none) := by
  match u, hu, hu1 with
  | c0 :: cs, hu, _ =>
    have h0 : plainByte c0 := hu c0 (List.mem_cons_self _ _)
    have hcs : plain cs := fun d hd => hu d (List.mem_cons_of_mem _ hd)
    obtain ⟨st1, hst1, e1⟩ := foldl_plain cs hcs [] State.start [c0] [0x22] (by decide)
    obtain ⟨st2, hst2, e2⟩ :=
      foldl_plain v hv [] st1 ([c0] ++ cs ++ [c]) [0x22] hst1
    unfold parseCommandLine
    simp only [List.cons_append, List.foldl_cons, List.foldl_append, List.foldl_nil,
      List.nil_append]
    rw [step_init, byteToString_ascii h0.1, e1, step_backslash _ _ _ _ hst1,
      step_escaped _ _ _ _ _ hst1, byteToString_ascii hc, e2]
    simp [finish, hst2]

theorem parseCommandLine_escape_witness :
    (plain (ascii "a") ∧ ascii "a" ≠ [] ∧ plain (ascii "b") ∧ 0x20 < 0x80)
      ∧ parseCommandLine (ascii "a" ++ [0x5C] ++ [0x20] ++ ascii "b")
        = ([ascii "a" ++ [0x20] ++ ascii "b"], none) :=
  ⟨by decide, parseCommandLine_escape (ascii "a") (ascii "b") 0x20 (by decide)
    (by decide) (by decide) (by decide)⟩

/-- C8, as the code has it: inside quotes the backslash is an ordinary byte, so
the quote character after it closes the quote.  For a plain word `w` of at
least two bytes and plain words `s` and `t`, the command `w "s\"` has the
tokens `w` and `s\`, and the command `w "s\"t"` fails with the unclosed-quote
error, its last quote character opening a quote that is never closed. -/
theorem parseCommandLine_backslash_in_quotes (w s t : GoString) (hw : plain w)
    (hw2 : 2 ≤ w.length) (hs : plain s) (ht : plain t) :
    parseCommandLine (w ++ [0x20] ++ [0x22] ++ s ++ [0x5C, 0x22]) = ([w, s ++ [0x5C]], none)
      ∧ parseCommandLine (w ++ [0x20] ++ [0x22] ++ s ++ [0x5C, 0x22] ++ t ++ [0x22])
        = ([], some (ascii "unclosed quote in command line: "
            ++ (w ++ [0x20] ++ [0x22] ++ s ++ [0x5C, 0x22] ++ t ++ [0x22]))) := by
  have hq : (0x22 : Nat) ∉ s ++ [0x5C] := by
    intro hmem
    rcases List.mem_append.1 hmem with h | h
    · exact (hs _ h).2.2.2.1 rfl
    · simp at h
  have hsa : isAscii (s ++ [0x5C]) := by
    intro d hd
    rcases List.mem_append.1 hd with h | h
    · exact (hs d h).1
    · simp at h; omega
  have key : (w ++ [0x20] ++ [0x22] ++ s ++ [0x5C, 0x22]).foldl step Vars.init
      = ⟨[w, s ++ [0x5C]], State.start, [], [0x22], false⟩ := by
    have e : w ++ [0x20] ++ [0x22] ++ s ++ [0x5C, 0x22]
        = (w ++ [0x20] ++ [0x22]) ++ (s ++ [0x5C]) ++ [0x22] := by simp
    rw [e, List.foldl_append, List.foldl_append,
      foldl_word_space_quote w 0x22 hw hw2 (Or.inl rfl), foldl_quotes _ hq,
      List.foldl_cons, List.foldl_nil, step_close_quote _ _ _ (by decide),
      encode_ascii hsa]
    simp
  constructor
  · unfold parseCommandLine
    rw [key]
    simp [finish]
  · obtain ⟨st1, hst1, e1⟩ :=
      foldl_plain t ht [w, s ++ [0x5C]] State.start [] [0x22] (by decide)
    unfold parseCommandLine
    rw [List.foldl_append, List.foldl_append, key, e1, List.foldl_cons, List.foldl_nil,
      step_open_quote _ _ _ _ hst1 (Or.inl rfl)]
    simp [finish, unclosedQuoteMsg]

theorem parseCommandLine_backslash_in_quotes_witness :
    (plain (ascii "-k") ∧ 2 ≤ (ascii "-k").length ∧ plain (ascii "a") ∧ plain (ascii "b"))
      ∧ (parseCommandLine (ascii "-k" ++ [0x20] ++ [0x22] ++ ascii "a" ++ [0x5C, 0x22])
          = ([ascii "-k", ascii "a" ++ [0x5C]], none)
        ∧ parseCommandLine
            (ascii "-k" ++ [0x20] ++ [0x22] ++ ascii "a" ++ [0x5C, 0x22] ++ ascii "b" ++ [0x22])
          = ([], some (ascii "unclosed quote in command line: "
              ++ (ascii "-k" ++ [0x20] ++ [0x22] ++ ascii "a" ++ [0x5C, 0x22] ++ ascii "b"
                ++ [0x22])))) :=
  ⟨by decide, parseCommandLine_backslash_in_quotes (ascii "-k") (ascii "a") (ascii "b")
    (by decide) (by decide) (by decide) (by decide)⟩

/-- C8 fails as stated: the command `-k "a\"b"` does not yield two tokens, the
call fails with the unclosed-quote error. -/
theorem parseCommandLine_escaped_quote_counterexample :
    parseCommandLine (ascii "-k" ++ [0x20] ++ [0x22] ++ ascii "a" ++ [0x5C, 0x22] ++ ascii "b"
        ++ [0x22])
      = ([], some (ascii "unclosed quote in command line: "
          ++ (ascii "-k" ++ [0x20] ++ [0x22] ++ ascii "a" ++ [0x5C, 0x22] ++ ascii "b"
            ++ [0x22])))
    ∧ ¬ ∃ tok : GoString,
        parseCommandLine (ascii "-k" ++ [0x20] ++ [0x22] ++ ascii "a" ++ [0x5C, 0x22]
          ++ ascii "b" ++ [0x22]) = ([ascii "-k", tok], none) := by
  have h : parseCommandLine (ascii "-k" ++ [0x20] ++ [0x22] ++ ascii "a" ++ [0x5C, 0x22]
      ++ ascii "b" ++ [0x22])
      = ([], some (ascii "unclosed quote in command line: "
          ++ (ascii "-k" ++ [0x20] ++ [0x22] ++ ascii "a" ++ [0x5C, 0x22] ++ ascii "b"
            ++ [0x22]))) := by decide
  refine ⟨h, ?_⟩
  rintro ⟨tok, htok⟩
  rw [h] at htok
  simp at htok

/-! ## Plain words separated by single spaces -/

theorem joinSpaces_cons_cons (c : Nat) (u : GoString) (ts : List GoString) :
    joinSpaces ((c :: u) :: ts) = c :: joinSpaces (u :: ts) := by
  cases ts <;> simp [joinSpaces]

/-- The loop in state `"arg"` on the rest `w` of a word followed by further
plain words, each after a single space. -/
theorem finish_foldl_joinSpaces (ts : List GoString)
    (hts : ∀ t ∈ ts, plain t ∧ t ≠ []) (cmd : GoString) (a : List GoString)
    (cur w q : GoString) (hw : plain w) (hne : cur ≠ []) :
    finish cmd ((joinSpaces (w :: ts)).foldl step ⟨a, State.arg, cur, q, false⟩)
      = (a ++ (cur ++ w) :: ts, none) := by
  induction ts generalizing a cur w with
  | nil =>
    rw [joinSpaces, foldl_arg_plain w hw]
    simp [finish, hne]
  | cons u us ih =>
    obtain ⟨hu, hune⟩ := hts u (List.mem_cons_self _ _)
    have hus : ∀ t ∈ us, plain t ∧ t ≠ [] := fun t ht => hts t (List.mem_cons_of_mem _ ht)
    match u, hu, hune with
    | c :: u1, hu, _ =>
      have hc : plainByte c := hu c (List.mem_cons_self _ _)
      have hu1 : plain u1 := fun d hd => hu d (List.mem_cons_of_mem _ hd)
      rw [joinSpaces, List.foldl_append, foldl_arg_plain w hw, joinSpaces_cons_cons,
        List.foldl_cons, step_arg_space, List.foldl_cons, step_start_plain _ _ _ hc,
        ih hus (a ++ [cur ++ w]) ([] ++ [c]) u1 hu1 (by simp)]
      simp

/-- Plain non-empty words joined by single spaces are tokenized into the same
words, provided the first word has at least two bytes when there are two words
or more. -/
theorem parseCommandLine_joinSpaces (T : List GoString)
    (hT : ∀ t ∈ T, plain t ∧ t ≠ [])
    (hfirst : ∀ t u rest, T = t :: u :: rest → 2 ≤ t.length) :
    parseCommandLine (joinSpaces T) = (T, none) := by
  match T, hT, hfirst with
  | [], _, _ => simp [parseCommandLine, joinSpaces, finish, Vars.init]
  | [[]], hT, _ => exact absurd rfl (hT [] (by simp)).2
  | [[c0]], hT, _ =>
    have h0 : plainByte c0 := (hT [c0] (by simp)).1 c0 (by simp)
    simp [parseCommandLine, joinSpaces, step_init, finish, byteToString_ascii h0.1]
  | [] :: _ :: _, hT, _ => exact absurd rfl (hT [] (by simp)).2
  | [c0] :: u :: rest, _, hfirst =>
    have := hfirst [c0] u rest rfl
    simp at this
  | (c0 :: c1 :: w) :: ts, hT, _ =>
    have hw : plain (c0 :: c1 :: w) := (hT _ (List.mem_cons_self _ _)).1
    have h0 : plainByte c0 := hw c0 (by simp)
    have h1 : plainByte c1 := hw c1 (by simp)
    have hw1 : plain w := fun d hd => hw d (by simp [hd])
    have hts : ∀ t ∈ ts, plain t ∧ t ≠ [] := fun t ht => hT t (List.mem_cons_of_mem _ ht)
    unfold parseCommandLine
    rw [joinSpaces_cons_cons, joinSpaces_cons_cons, List.foldl_cons, step_init,
      List.foldl_cons, byteToString_ascii h0.1, step_start_plain _ _ _ h1,
      finish_foldl_joinSpaces ts hts _ [] ([c0] ++ [c1]) w [0x22] hw1 (by simp)]
    simp

/-- C5, as the code has it: when `parseCommandLine` succeeds on a command that
does not end in a backslash with the token list `T`, every token of `T` is a
non-empty plain word (ASCII, without space, tab, quote and backslash), and the
first token has at least two bytes if there are two tokens or more, then
`parseCommandLine` on the tokens of `T` joined by single spaces succeeds and
returns `T` again. -/
theorem parseCommandLine_roundtrip (cmd : GoString) (T : List GoString)
    (_hlast : cmd.getLast? ≠ some 0x5C) (_h : parseCommandLine cmd = (T, none))
    (hT : ∀ t ∈ T, plain t ∧ t ≠ [])
    (hfirst : ∀ t u rest, T = t :: u :: rest → 2 ≤ t.length) :
    parseCommandLine (joinSpaces T) = (T, none) :=
  parseCommandLine_joinSpaces T hT hfirst

theorem parseCommandLine_roundtrip_witness :
    ((ascii "-e  1.1.1.1 -v ").getLast? ≠ some 0x5C
      ∧ parseCommandLine (ascii "-e  1.1.1.1 -v ")
        = ([ascii "-e", ascii "1.1.1.1", ascii "-v"], none))
    ∧ parseCommandLine (joinSpaces [ascii "-e", ascii "1.1.1.1", ascii "-v"])
      = ([ascii "-e", ascii "1.1.1.1", ascii "-v"], none) :=
  ⟨by decide, parseCommandLine_roundtrip (ascii "-e  1.1.1.1 -v ")
    [ascii "-e", ascii "1.1.1.1", ascii "-v"] (by decide)
    (by decide) (by decide) (by
      intro t u rest h
      simp only [List.cons.injEq] at h
      rw [← h.1]
      decide)⟩

/-- C5 fails as stated: the command `-k` followed by `my key` in single quotes
has the tokens `-k` and `my key`; joined by a space they are tokenized into the
three tokens `-k`, `my` and `key`. -/
theorem parseCommandLine_roundtrip_counterexample :
    (ascii "-k " ++ [0x27] ++ ascii "my key" ++ [0x27]).getLast? ≠ some 0x5C
    ∧ parseCommandLine (ascii "-k " ++ [0x27] ++ ascii "my key" ++ [0x27])
      = ([ascii "-k", ascii "my key"], none)
    ∧ parseCommandLine (joinSpaces [ascii "-k", ascii "my key"])
      = ([ascii "-k", ascii "my", ascii "key"], none)
    ∧ parseCommandLine (joinSpaces [ascii "-k", ascii "my key"])
      ≠ ([ascii "-k", ascii "my key"], none) := by
  decide

/-! ## The first byte of the command -/

theorem beginsWith_append_current (p : GoString) (l : Vars) (x : GoString)
    (h : BeginsWith p l) : BeginsWith p { l with current := l.current ++ x } := by
  rcases h with ⟨t, ts, r, ha, ht⟩ | ⟨ha, r, hr⟩
  · exact Or.inl ⟨t, ts, r, ha, ht⟩
  · exact Or.inr ⟨ha, r ++ x, by simp [hr]⟩

theorem beginsWith_emit (p : GoString) (l : Vars) (h : BeginsWith p l) :
    BeginsWith p
      { l with args := l.args ++ [l.current], current := [], state := State.start } := by
  rcases h with ⟨t, ts, r, ha, ht⟩ | ⟨ha, r, hr⟩
  · exact Or.inl ⟨t, ts ++ [l.current], r, by simp [ha], ht⟩
  · exact Or.inl ⟨l.current, [], r, by simp [ha], hr⟩

theorem beginsWith_step (p : GoString) (l : Vars) (c : Nat) (h : BeginsWith p l) :
    BeginsWith p (step l c) := by
  unfold step
  split_ifs
  · exact beginsWith_append_current p l _ h
  · exact beginsWith_emit p l h
  · exact beginsWith_append_current p l _ h
  · exact h
  · exact h
  · exact beginsWith_emit p l h
  · exact beginsWith_append_current p l _ h
  · exact beginsWith_append_current p l _ h
  · exact h

theorem beginsWith_foldl (p : GoString) (cs : GoString) (l : Vars)
    (h : BeginsWith p l) : BeginsWith p (cs.foldl step l) := by
  induction cs generalizing l with
  | nil => exact h
  | cons c cs ih => exact ih _ (beginsWith_step p l c h)

/-- On a non-empty command on which `parseCommandLine` succeeds the token list
is non-empty and its first token begins with `string(c)`, `c` the first byte
of the command. -/
theorem parseCommandLine_first_string (c : Nat) (rest : GoString) (T : List GoString)
    (h : parseCommandLine (c :: rest) = (T, none)) :
    ∃ tail ts, T = (byteToString c ++ tail) :: ts := by
  have hb : BeginsWith (byteToString c) (rest.foldl step (step Vars.init c)) := by
    apply beginsWith_foldl
    rw [step_init]
    exact Or.inr ⟨rfl, [], by simp⟩
  unfold parseCommandLine at h
  rw [List.foldl_cons] at h
  generalize rest.foldl step (step Vars.init c) = l at h hb
  unfold finish at h
  split_ifs at h with h1 h2
  · simp at h
  · rcases hb with ⟨t, ts, r, ha, ht⟩ | ⟨ha, r, hr⟩
    · refine ⟨r, ts ++ [l.current], ?_⟩
      rw [← (Prod.mk.inj h).1, ha, ht]
      simp
    · refine ⟨r, [], ?_⟩
      rw [← (Prod.mk.inj h).1, ha, hr]
      simp
  · rcases hb with ⟨t, ts, r, ha, ht⟩ | ⟨ha, r, hr⟩
    · refine ⟨r, ts, ?_⟩
      rw [← (Prod.mk.inj h).1, ha, ht]
    · exfalso
      apply byteToString_ne_nil c
      have : byteToString c ++ r = [] := by rw [← hr]; simpa using h2
      exact (List.append_eq_nil.1 this).1

/-- C6, for an ASCII first byte: on a non-empty command whose first byte `c` is
ASCII and on which `parseCommandLine` succeeds, the token list is non-empty and
its first token begins with `c`, whatever `c` is (a space, a tab, a quote and a
backslash included). -/
theorem parseCommandLine_first_byte (c : Nat) (rest : GoString) (T : List GoString)
    (hc : c < 0x80) (h : parseCommandLine (c :: rest) = (T, none)) :
    ∃ tail ts, T = (c :: tail) :: ts := by
  obtain ⟨tail, ts, hT⟩ := parseCommandLine_first_string c rest T h
  exact ⟨tail, ts, by rw [hT, byteToString_ascii hc]; rfl⟩

theorem parseCommandLine_first_byte_witness :
    ((0x20 : Nat) < 0x80
      ∧ parseCommandLine (0x20 :: ascii "a b") = ([ascii " a", ascii "b"], none))
    ∧ ∃ tail ts, [ascii " a", ascii "b"] = ((0x20 : Nat) :: tail) :: ts :=
  ⟨by decide, parseCommandLine_first_byte 0x20 (ascii "a b") [ascii " a", ascii "b"]
    (by decide) (by decide)⟩

/-- C6 fails as stated on a command that starts with a byte from 0x80 on: the
command of the two bytes C2 A9 (the copyright sign in UTF-8) has the single
token C3 82 C2 A9, which does not begin with the byte C2. -/
theorem parseCommandLine_first_byte_counterexample :
    parseCommandLine [0xC2, 0xA9] = ([[0xC3, 0x82, 0xC2, 0xA9]], none)
    ∧ ¬ ∃ tail ts, ([[0xC3, 0x82, 0xC2, 0xA9]] : List GoString) = (0xC2 :: tail) :: ts := by
  refine ⟨by decide, ?_⟩
  rintro ⟨tail, ts, h⟩
  simp at h

/-! ## Empty tokens -/

theorem adjacentQuotes_append (s x : GoString) (h : AdjacentQuotes s) :
    AdjacentQuotes (s ++ x) := by
  obtain ⟨pre, q, post, hq, rfl⟩ := h
  exact ⟨pre, q, post ++ x, hq, by simp⟩

theorem emptyInv_step (pre : GoString) (l : Vars) (c : Nat) (h : EmptyInv pre l) :
    EmptyInv (pre ++ [c]) (step l c) := by
  obtain ⟨h1, h2, h3⟩ := h
  have hmono : [] ∈ l.args → AdjacentQuotes (pre ++ [c]) :=
    fun hm => adjacentQuotes_append pre [c] (h1 hm)
  have hbs := byteToString_ne_nil c
  unfold step
  split_ifs with hq hne hesc hback hquote harg hws hnws
  · exact ⟨hmono, by simp [hq], by simp [hbs]⟩
  · refine ⟨?_, by simp, by simp⟩
    intro hm
    simp only [List.mem_append, List.mem_singleton] at hm
    rcases hm with hm | hm
    · exact hmono hm
    · obtain ⟨p, q, hqq, hpre, hquo⟩ := h3 hq hm.symm
      have hcq : c = q := byteToString_eq_singleton (by rw [← hquo]; exact not_not.1 hne)
      exact ⟨p, q, [], hqq, by rw [hpre, hcq]; simp⟩
  · exact ⟨hmono, by simp [hbs], by simp [hq]⟩
  · exact ⟨hmono, h2, by simp [hq]⟩
  · refine ⟨hmono, by simp, ?_⟩
    intro _ _
    refine ⟨pre, c, hquote, rfl, ?_⟩
    rcases hquote with rfl | rfl <;> simp [byteToString]
  · refine ⟨?_, by simp, by simp⟩
    intro hm
    simp only [List.mem_append, List.mem_singleton] at hm
    rcases hm with hm | hm
    · exact hmono hm
    · exact absurd hm.symm (h2 harg)
  · exact ⟨hmono, by simp [hbs], by simp [hq]⟩
  · exact ⟨hmono, by simp [hbs], by simp⟩
  · exact ⟨hmono, h2, by simp [hq]⟩

theorem emptyInv_foldl (cs pre : GoString) (l : Vars) (h : EmptyInv pre l) :
    EmptyInv (pre ++ cs) (cs.foldl step l) := by
  induction cs generalizing pre l with
  | nil => simpa using h
  | cons c cs ih =>
    have := ih (pre ++ [c]) (step l c) (emptyInv_step pre l c h)
    simpa using this

/-- C7: when `parseCommandLine` succeeds and the token list has an empty token,
the command has two adjacent identical quote characters; a command without
quote characters therefore never yields an empty token. -/
theorem parseCommandLine_empty_token (cmd : GoString) (T : List GoString)
    (h : parseCommandLine cmd = (T, none)) :
    ([] ∈ T → ∃ pre q post, (q = 0x22 ∨ q = 0x27) ∧ cmd = pre ++ q :: q :: post)
    ∧ (0x22 ∉ cmd → 0x27 ∉ cmd → [] ∉ T) := by
  have key : [] ∈ T → AdjacentQuotes cmd := by
    intro hm
    have hinv : EmptyInv ([] ++ cmd) (cmd.foldl step Vars.init) :=
      emptyInv_foldl cmd [] Vars.init ⟨by simp [Vars.init], by simp [Vars.init],
        by simp [Vars.init]⟩
    rw [List.nil_append] at hinv
    unfold parseCommandLine at h
    generalize cmd.foldl step Vars.init = l at h hinv
    unfold finish at h
    split_ifs at h with hq hcur
    · simp at h
    · rw [← (Prod.mk.inj h).1] at hm
      simp only [List.mem_append, List.mem_singleton] at hm
      rcases hm with hm | hm
      · exact hinv.1 hm
      · exact absurd hm.symm hcur
    · rw [← (Prod.mk.inj h).1] at hm
      exact hinv.1 hm
  refine ⟨key, ?_⟩
  intro hd hs hm
  obtain ⟨pre, q, post, hq, rfl⟩ := key hm
  rcases hq with rfl | rfl
  · exact hd (by simp)
  · exact hs (by simp)

theorem parseCommandLine_empty_token_witness :
    parseCommandLine (ascii "-k " ++ [0x22, 0x22]) = ([ascii "-k", []], none)
    ∧ (([] ∈ [ascii "-k", []] → ∃ pre q post, (q = 0x22 ∨ q = 0x27)
          ∧ ascii "-k " ++ [0x22, 0x22] = pre ++ q :: q :: post)
      ∧ (0x22 ∉ ascii "-k " ++ [0x22, 0x22] → 0x27 ∉ ascii "-k " ++ [0x22, 0x22]
          → [] ∉ [ascii "-k", []])) :=
  ⟨by decide, parseCommandLine_empty_token (ascii "-k " ++ [0x22, 0x22]) [ascii "-k", []]
    (by decide)⟩

/-! ## Whitespace and the first byte -/

/-- C1 at the command `a b`: the code returns the single token `ab`, the
maximal runs of non-whitespace bytes are `a` and `b`; and at the command ` a`
(a space, then `a`) the code returns the token ` a` with the space, the only
run is `a`. -/
theorem parseCommandLine_fields_diverge :
    parseCommandLine (ascii "a b") = ([ascii "ab"], none)
    ∧ fields (ascii "a b") = [ascii "a", ascii "b"]
    ∧ parseCommandLine (ascii " a") = ([ascii " a"], none)
    ∧ fields (ascii " a") = [ascii "a"] := by
  decide

/-! ## The flag validator: results -/

theorem mapIndex_eq_true_iff (m : List (GoString × Bool)) (k : GoString)
    (hm : ∀ e ∈ m, e.2 = true) : mapIndex m k = true ↔ k ∈ m.map Prod.fst := by
  induction m with
  | nil => simp [mapIndex, List.lookup]
  | cons e es ih =>
    obtain ⟨k1, b⟩ := e
    have hb : b = true := hm (k1, b) (List.mem_cons_self _ _)
    have hes : ∀ e ∈ es, e.2 = true := fun e he => hm e (List.mem_cons_of_mem _ he)
    have ih1 := ih hes
    by_cases hk : k = k1
    · subst hk
      simp [mapIndex, List.lookup, hb]
    · have hbeq : (k == k1) = false := by simpa using hk
      unfold mapIndex at ih1 ⊢
      simp only [List.lookup, hbeq, List.map_cons, List.mem_cons, hk, false_or]
      exact ih1

theorem validCountryCodes_index (k : GoString) :
    mapIndex validCountryCodes k = true ↔ k ∈ validCountryCodes.map Prod.fst :=
  mapIndex_eq_true_iff validCountryCodes k (by decide)

/-- C9: `validateFlags` returns nil exactly when the bind address resolves as a
TCP address, the endpoint parses as an IP, and, if `PsiphonEnabled`, `Country`
is not empty and is a key of `validCountryCodes`; the keys of
`validCountryCodes` are 30 distinct codes. -/
theorem validateFlags_eq_none_iff (resolveTCPAddr parseIP : GoString → Bool) (f : Flags) :
    (validateFlags resolveTCPAddr parseIP f = none ↔
      (resolveTCPAddr f.BindAddress = true ∧ parseIP f.Endpoint = true
        ∧ (f.PsiphonEnabled = true →
            f.Country ≠ [] ∧ f.Country ∈ validCountryCodes.map Prod.fst)))
    ∧ (validCountryCodes.map Prod.fst).length = 30
    ∧ (validCountryCodes.map Prod.fst).Nodup := by
  refine ⟨?_, by decide, by decide⟩
  have hidx := validCountryCodes_index f.Country
  unfold validateFlags
  split_ifs with h1 h2 h3 h4
  · simp [h1]
  · simp [h2]
  · simp [h3.1, h3.2]
  · have : f.Country ∉ validCountryCodes.map Prod.fst := by
      rw [← hidx, h4.2]; simp
    simp [h4.1, this]
  · have hr : resolveTCPAddr f.BindAddress = true := by simpa using h1
    have hp : parseIP f.Endpoint = true := by simpa using h2
    simp only [hr, hp, true_and, true_iff]
    intro hps
    have hne : f.Country ≠ [] := fun h => h3 ⟨hps, h⟩
    have hin : mapIndex validCountryCodes f.Country = true := by
      by_contra hc
      exact h4 ⟨hps, by simpa using hc⟩
    exact ⟨hne, hidx.1 hin⟩

/-- C10: `validateFlags` reports the first failing rule, in the order bind
address, endpoint, missing country, invalid country: the invalid-bindAddress
error when the bind address does not resolve, whatever the other fields are;
else the invalid-endpoint error when the endpoint does not parse; else the
missing-country error when `PsiphonEnabled` and `Country` is empty; else the
invalid-country error with that country when `PsiphonEnabled` and `Country` is
no key of `validCountryCodes`. -/
theorem validateFlags_first_failure (resolveTCPAddr parseIP : GoString → Bool) (f : Flags) :
    (resolveTCPAddr f.BindAddress = false →
      validateFlags resolveTCPAddr parseIP f
        = some (ValidateError.invalidBindAddress f.BindAddress))
    ∧ (resolveTCPAddr f.BindAddress = true → parseIP f.Endpoint = false →
      validateFlags resolveTCPAddr parseIP f
        = some (ValidateError.invalidEndpoint f.Endpoint))
    ∧ (resolveTCPAddr f.BindAddress = true → parseIP f.Endpoint = true →
      f.PsiphonEnabled = true → f.Country = [] →
      validateFlags resolveTCPAddr parseIP f = some ValidateError.missingCountry)
    ∧ (resolveTCPAddr f.BindAddress = true → parseIP f.Endpoint = true →
      f.PsiphonEnabled = true → f.Country ≠ [] →
      f.Country ∉ validCountryCodes.map Prod.fst →
      validateFlags resolveTCPAddr parseIP f
        = some (ValidateError.invalidCountry f.Country)) := by
  refine ⟨?_, ?_, ?_, ?_⟩
  · intro h1
    simp [validateFlags, h1]
  · intro h1 h2
    simp [validateFlags, h1, h2]
  · intro h1 h2 h3 h4
    simp [validateFlags, h1, h2, h3, h4]
  · intro h1 h2 h3 h4 h5
    have hidx : mapIndex validCountryCodes f.Country = false := by
      rw [← validCountryCodes_index] at h5
      simpa using h5
    simp [validateFlags, h1, h2, h3, h4, hidx]

theorem validateFlags_first_failure_witness :
    validateFlags (fun _ => true) (fun _ => true)
        ⟨false, ascii "127.0.0.1:8086", ascii "1.1.1.1", ascii "notset", ascii "ZZ", true,
          false, false, 1000⟩
      = some (ValidateError.invalidCountry (ascii "ZZ")) :=
  (validateFlags_first_failure (fun _ => true) (fun _ => true)
    ⟨false, ascii "127.0.0.1:8086", ascii "1.1.1.1", ascii "notset", ascii "ZZ", true,
      false, false, 1000⟩).2.2.2 rfl rfl rfl (by decide) (by decide)

/-! ## An escaped byte at the start of a token -/

/-- C16 at the command `ab \c d`: the code returns the two tokens `ab` and
`cd`, not the three tokens `ab`, `c` and `d`; the escaped byte is appended in
state `"start"`, the state stays `"start"`, and the space after it is skipped. -/
theorem parseCommandLine_escaped_start :
    parseCommandLine (ascii "ab " ++ [0x5C] ++ ascii "c d") = ([ascii "ab", ascii "cd"], none)
    ∧ parseCommandLine (ascii "ab " ++ [0x5C] ++ ascii "c d")
      ≠ ([ascii "ab", ascii "c", ascii "d"], none) := by
  decide

/-! ## The command that Run tokenizes -/

theorem step_args (l : Vars) (c : Nat) : ∃ ts, (step l c).args = l.args ++ ts := by
  unfold step
  split_ifs
  · exact ⟨[], by simp⟩
  · exact ⟨[l.current], rfl⟩
  · exact ⟨[], by simp⟩
  · exact ⟨[], by simp⟩
  · exact ⟨[], by simp⟩
  · exact ⟨[l.current], rfl⟩
  · exact ⟨[], by simp⟩
  · exact ⟨[], by simp⟩
  · exact ⟨[], by simp⟩

theorem foldl_args (cs : GoString) (l : Vars) :
    ∃ ts, (cs.foldl step l).args = l.args ++ ts := by
  induction cs generalizing l with
  | nil => exact ⟨[], by simp⟩
  | cons c cs ih =>
    obtain ⟨ts1, h1⟩ := step_args l c
    obtain ⟨ts2, h2⟩ := ih (step l c)
    exact ⟨ts1 ++ ts2, by rw [List.foldl_cons, h2, h1, List.append_assoc]⟩

theorem foldl_run :
    (ascii "run ").foldl step Vars.init = ⟨[ascii "run"], State.start, [], [0x22], false⟩ := by
  decide

/-- When `parseCommandLine` succeeds on `run `, a space included, followed by any
string, the first token is `run`. -/
theorem parseCommandLine_run_first (args : GoString) (T : List GoString)
    (h : parseCommandLine (ascii "run " ++ args) = (T, none)) :
    ∃ ts, T = ascii "run" :: ts := by
  unfold parseCommandLine at h
  rw [List.foldl_append, foldl_run] at h
  obtain ⟨ts, hts⟩ := foldl_args args ⟨[ascii "run"], State.start, [], [0x22], false⟩
  generalize args.foldl step ⟨[ascii "run"], State.start, [], [0x22], false⟩ = l at h hts
  unfold finish at h
  split_ifs at h
  · simp at h
  · exact ⟨ts ++ [l.current], by rw [← (Prod.mk.inj h).1, hts]; simp⟩
  · exact ⟨ts, by rw [← (Prod.mk.inj h).1, hts]; simp⟩

/-- C18: for every list `ws` of non-empty plain words, of any length, the
command `run `, a space included, followed by the words of `ws` joined by
single spaces is tokenized into `run` followed by the words of `ws`; and
whenever `parseCommandLine` succeeds on `run ` followed by an argument string,
the first token is `run`. -/
theorem parseCommandLine_run (ws : List GoString) (hws : ∀ t ∈ ws, plain t ∧ t ≠ []) :
    parseCommandLine (ascii "run " ++ joinSpaces ws) = (ascii "run" :: ws, none)
    ∧ ∀ (args : GoString) (T : List GoString),
        parseCommandLine (ascii "run " ++ args) = (T, none) → ∃ ts, T = ascii "run" :: ts := by
  refine ⟨?_, parseCommandLine_run_first⟩
  cases ws with
  | nil => decide
  | cons w rest =>
    have e : ascii "run " ++ joinSpaces (w :: rest) = joinSpaces (ascii "run" :: w :: rest) := by
      rw [joinSpaces]
      rfl
    rw [e]
    apply parseCommandLine_joinSpaces
    · intro t ht
      rcases List.mem_cons.1 ht with rfl | ht
      · exact ⟨by decide, by decide⟩
      · exact hws t ht
    · intro t u r hT
      rw [← (List.cons.inj hT).1]
      decide

theorem parseCommandLine_run_witness :
    (∀ t ∈ [ascii "-v", ascii "x"], plain t ∧ t ≠ [])
    ∧ (parseCommandLine (ascii "run " ++ joinSpaces [ascii "-v", ascii "x"])
          = (ascii "run" :: [ascii "-v", ascii "x"], none)
      ∧ ∀ (args : GoString) (T : List GoString),
          parseCommandLine (ascii "run " ++ args) = (T, none) → ∃ ts, T = ascii "run" :: ts) :=
  ⟨by decide, parseCommandLine_run [ascii "-v", ascii "x"] (by decide)⟩

/-! ## Bytes from 0x80 on -/

theorem step_start_noDelimiter (a : List GoString) (cur q : GoString) {c : Nat}
    (h : ¬ isDelimiter c) :
    step ⟨a, State.start, cur, q, false⟩ c
      = ⟨a, State.arg, cur ++ byteToString c, q, false⟩ := by
  unfold isDelimiter at h
  simp only [not_or] at h
  obtain ⟨h1, h2, h3, h4, h5⟩ := h
  simp [step, h1, h2, h3, h4, h5]

theorem step_arg_noDelimiter (a : List GoString) (cur q : GoString) {c : Nat}
    (h : ¬ isDelimiter c) :
    step ⟨a, State.arg, cur, q, false⟩ c
      = ⟨a, State.arg, cur ++ byteToString c, q, false⟩ := by
  unfold isDelimiter at h
  simp only [not_or] at h
  obtain ⟨h1, h2, h3, h4, h5⟩ := h
  simp [step, h1, h2, h3, h4, h5]

theorem foldl_arg_noDelimiter (s : GoString) (h : noDelimiter s) (a : List GoString)
    (cur q : GoString) :
    s.foldl step ⟨a, State.arg, cur, q, false⟩
      = ⟨a, State.arg, cur ++ encode s, q, false⟩ := by
  induction s generalizing cur with
  | nil => simp [encode]
  | cons c cs ih =>
    have hc : ¬ isDelimiter c := h c (List.mem_cons_self _ _)
    have hcs : noDelimiter cs := fun d hd => h d (List.mem_cons_of_mem _ hd)
    rw [List.foldl_cons, step_arg_noDelimiter a cur q hc, ih hcs]
    simp [encode]

theorem length_le_encode (s : GoString) : s.length ≤ (encode s).length := by
  induction s with
  | nil => simp [encode]
  | cons c cs ih =>
    have : 1 ≤ (byteToString c).length := by
      unfold byteToString; split <;> simp
    simp only [encode, List.length_cons, List.length_append]
    omega

theorem isAscii_of_encode_length (s : GoString) (h : (encode s).length = s.length) :
    isAscii s := by
  induction s with
  | nil => intro c hc; simp at hc
  | cons c cs ih =>
    have hle := length_le_encode cs
    simp only [encode, List.length_cons, List.length_append] at h
    have hc : c < 0x80 := by
      by_contra hge
      have : (byteToString c).length = 2 := by simp [byteToString, hge]
      omega
    have h1 : (byteToString c).length = 1 := by simp [byteToString_ascii hc]
    have hcs : isAscii cs := ih (by omega)
    intro d hd
    rcases List.mem_cons.1 hd with rfl | hd
    · exact hc
    · exact hcs d hd

/-- After a plain word of at least two bytes and a space, a non-empty string
`s` without delimiters becomes the token `encode s`. -/
theorem parseCommandLine_word_encode (w s : GoString) (hw : plain w) (hw2 : 2 ≤ w.length)
    (hs : noDelimiter s) (hne : s ≠ []) :
    parseCommandLine (w ++ [0x20] ++ s) = ([w, encode s], none) := by
  match s, hs, hne with
  | c :: cs, hs, _ =>
    have hc : ¬ isDelimiter c := hs c (List.mem_cons_self _ _)
    have hcs : noDelimiter cs := fun d hd => hs d (List.mem_cons_of_mem _ hd)
    unfold parseCommandLine
    simp only [List.foldl_append, List.foldl_cons, List.foldl_nil]
    rw [foldl_init_word w hw hw2, step_arg_space, step_start_noDelimiter _ _ _ hc,
      foldl_arg_noDelimiter cs hcs]
    simp [finish, encode, byteToString_ne_nil]

theorem encode_append (a b : GoString) : encode (a ++ b) = encode a ++ encode b := by
  induction a with
  | nil => rfl
  | cons c cs ih => simp [encode, ih]

theorem encode_singleton (c : Nat) : encode [c] = byteToString c := by
  simp [encode]

/-! ## What the tokens keep of the command -/

theorem deletesOnly_append_keep {pre out : GoString} (c : Nat) (h : DeletesOnly pre out) :
    DeletesOnly (pre ++ [c]) (out ++ [c]) := by
  induction h with
  | nil => exact DeletesOnly.keep c DeletesOnly.nil
  | keep d _ ih => exact DeletesOnly.keep d ih
  | drop hd _ ih => exact DeletesOnly.drop hd ih

theorem deletesOnly_append_drop {pre out : GoString} {c : Nat} (hc : isDelimiter c)
    (h : DeletesOnly pre out) : DeletesOnly (pre ++ [c]) out := by
  induction h with
  | nil => exact DeletesOnly.drop hc DeletesOnly.nil
  | keep d _ ih => exact DeletesOnly.keep d ih
  | drop hd _ ih => exact DeletesOnly.drop hd ih

theorem deletesOnly_sublist {cmd out : GoString} (h : DeletesOnly cmd out) :
    out.Sublist cmd := by
  induction h with
  | nil => exact List.Sublist.slnil
  | keep d _ ih => exact List.Sublist.cons₂ d ih
  | drop _ _ ih => exact List.Sublist.cons _ ih

theorem keepInv_step (pre : GoString) (l : Vars) (c : Nat) (hc : c < 0x80)
    (h : KeepInv pre l) : KeepInv (pre ++ [c]) (step l c) := by
  obtain ⟨hd, hq⟩ := h
  have hb : byteToString c = [c] := byteToString_ascii hc
  have hkeep : DeletesOnly (pre ++ [c]) (l.args.flatten ++ (l.current ++ [c])) := by
    rw [← List.append_assoc]
    exact deletesOnly_append_keep c hd
  have hemit : (l.args ++ [l.current]).flatten ++ [] = l.args.flatten ++ l.current := by
    simp
  unfold step
  rw [hb]
  split_ifs with hst hne hesc hback hquote harg hws hnws
  · exact ⟨hkeep, hq⟩
  · refine ⟨?_, hq⟩
    have hcq : [c] = l.quote := not_not.1 hne
    have hdel : isDelimiter c := by
      unfold isDelimiter
      rcases hq with hq | hq
      · rw [hq] at hcq; simp at hcq; omega
      · rw [hq] at hcq; simp at hcq; omega
    show DeletesOnly (pre ++ [c]) ((l.args ++ [l.current]).flatten ++ [])
    rw [hemit]
    exact deletesOnly_append_drop hdel hd
  · exact ⟨hkeep, hq⟩
  · exact ⟨deletesOnly_append_drop (by unfold isDelimiter; omega) hd, hq⟩
  · refine ⟨deletesOnly_append_drop (by unfold isDelimiter; omega) hd, ?_⟩
    show [c] = [0x22] ∨ [c] = [0x27]
    rcases hquote with rfl | rfl <;> simp
  · refine ⟨?_, hq⟩
    show DeletesOnly (pre ++ [c]) ((l.args ++ [l.current]).flatten ++ [])
    rw [hemit]
    exact deletesOnly_append_drop (by unfold isDelimiter; omega) hd
  · exact ⟨hkeep, hq⟩
  · exact ⟨hkeep, hq⟩
  · refine ⟨deletesOnly_append_drop ?_ hd, hq⟩
    unfold isDelimiter
    by_cases h20 : c = 0x20
    · exact Or.inl h20
    · by_cases h09 : c = 0x09
      · exact Or.inr (Or.inl h09)
      · exact absurd ⟨h20, h09⟩ hnws

theorem keepInv_foldl (cs pre : GoString) (l : Vars) (hcs : isAscii cs)
    (h : KeepInv pre l) : KeepInv (pre ++ cs) (cs.foldl step l) := by
  induction cs generalizing pre l with
  | nil => simpa using h
  | cons c cs ih =>
    have hc : c < 0x80 := hcs c (List.mem_cons_self _ _)
    have hrest : isAscii cs := fun d hd => hcs d (List.mem_cons_of_mem _ hd)
    have := ih (pre ++ [c]) (step l c) hrest (keepInv_step pre l c hc h)
    simpa using this

/-- C17: when `parseCommandLine` succeeds on an ASCII command, the tokens
concatenated in order are a subsequence of the command, and they are the
command with only delimiter bytes (space, tab, double quote, single quote,
backslash) deleted: no other byte is dropped, doubled or moved. -/
theorem parseCommandLine_keeps (cmd : GoString) (T : List GoString) (hcmd : isAscii cmd)
    (h : parseCommandLine cmd = (T, none)) :
    T.flatten.Sublist cmd ∧ DeletesOnly cmd T.flatten := by
  have hinv : KeepInv ([] ++ cmd) (cmd.foldl step Vars.init) :=
    keepInv_foldl cmd [] Vars.init hcmd ⟨by simpa [Vars.init] using DeletesOnly.nil,
      Or.inl rfl⟩
  rw [List.nil_append] at hinv
  have key : DeletesOnly cmd T.flatten := by
    unfold parseCommandLine at h
    generalize cmd.foldl step Vars.init = l at h hinv
    unfold finish at h
    split_ifs at h with hq hcur
    · simp at h
    · rw [← (Prod.mk.inj h).1]
      simpa using hinv.1
    · rw [← (Prod.mk.inj h).1]
      have : l.current = [] := not_not.1 hcur
      simpa [this] using hinv.1
  exact ⟨deletesOnly_sublist key, key⟩

theorem parseCommandLine_keeps_witness :
    (isAscii (ascii "-k " ++ [0x27] ++ ascii "a b" ++ [0x27])
      ∧ parseCommandLine (ascii "-k " ++ [0x27] ++ ascii "a b" ++ [0x27])
        = ([ascii "-k", ascii "a b"], none))
    ∧ ([ascii "-k", ascii "a b"].flatten.Sublist (ascii "-k " ++ [0x27] ++ ascii "a b" ++ [0x27])
      ∧ DeletesOnly (ascii "-k " ++ [0x27] ++ ascii "a b" ++ [0x27])
          [ascii "-k", ascii "a b"].flatten) :=
  ⟨by decide, parseCommandLine_keeps (ascii "-k " ++ [0x27] ++ ascii "a b" ++ [0x27])
    [ascii "-k", ascii "a b"] (by decide) (by decide)⟩

/-! ## What the tokens make of the bytes they keep -/

theorem encodeInv_step (pre : GoString) (l : Vars) (c : Nat) (h : EncodeInv pre l) :
    EncodeInv (pre ++ [c]) (step l c) := by
  obtain ⟨⟨kept, hd, hk⟩, hq⟩ := h
  have hkeep : ∃ k2, DeletesOnly (pre ++ [c]) k2
      ∧ l.args.flatten ++ (l.current ++ byteToString c) = encode k2 :=
    ⟨kept ++ [c], deletesOnly_append_keep c hd, by
      rw [encode_append, encode_singleton, ← hk, List.append_assoc]⟩
  have hdrop : isDelimiter c → ∃ k2, DeletesOnly (pre ++ [c]) k2
      ∧ l.args.flatten ++ l.current = encode k2 :=
    fun hc => ⟨kept, deletesOnly_append_drop hc hd, hk⟩
  have hemit : (l.args ++ [l.current]).flatten ++ [] = l.args.flatten ++ l.current := by
    simp
  unfold step
  split_ifs with hst hne hesc hback hquote harg hws hnws
  · exact ⟨hkeep, hq⟩
  · refine ⟨?_, hq⟩
    have hcq : byteToString c = l.quote := not_not.1 hne
    have hdel : isDelimiter c := by
      unfold isDelimiter
      rcases hq with hq | hq
      · rw [hq] at hcq
        have := byteToString_eq_singleton hcq
        omega
      · rw [hq] at hcq
        have := byteToString_eq_singleton hcq
        omega
    show ∃ k2, DeletesOnly (pre ++ [c]) k2
      ∧ (l.args ++ [l.current]).flatten ++ [] = encode k2
    rw [hemit]
    exact hdrop hdel
  · exact ⟨hkeep, hq⟩
  · exact ⟨hdrop (by unfold isDelimiter; omega), hq⟩
  · refine ⟨hdrop (by unfold isDelimiter; omega), ?_⟩
    show byteToString c = [0x22] ∨ byteToString c = [0x27]
    rcases hquote with rfl | rfl <;> simp [byteToString]
  · refine ⟨?_, hq⟩
    show ∃ k2, DeletesOnly (pre ++ [c]) k2
      ∧ (l.args ++ [l.current]).flatten ++ [] = encode k2
    rw [hemit]
    exact hdrop (by unfold isDelimiter; omega)
  · exact ⟨hkeep, hq⟩
  · exact ⟨hkeep, hq⟩
  · refine ⟨hdrop ?_, hq⟩
    unfold isDelimiter
    by_cases h20 : c = 0x20
    · exact Or.inl h20
    · by_cases h09 : c = 0x09
      · exact Or.inr (Or.inl h09)
      · exact absurd ⟨h20, h09⟩ hnws

theorem encodeInv_foldl (cs pre : GoString) (l : Vars) (h : EncodeInv pre l) :
    EncodeInv (pre ++ cs) (cs.foldl step l) := by
  induction cs generalizing pre l with
  | nil => simpa using h
  | cons c cs ih =>
    have := ih (pre ++ [c]) (step l c) (encodeInv_step pre l c h)
    simpa using this

/-- C20: the loop copies bytes and appends `string(c)` for each byte `c` it
keeps.  When `parseCommandLine` succeeds, the tokens concatenated are
`encode kept` for a string `kept` that is the command with only delimiters
deleted; `string(b)` for a byte `b` from 0x80 on is the two bytes of the UTF-8
encoding of the code point with number `b`; and `encode s` is `s` itself
exactly when `s` is ASCII. -/
theorem parseCommandLine_encode (cmd : GoString) (T : List GoString)
    (h : parseCommandLine cmd = (T, none)) :
    (∃ kept, DeletesOnly cmd kept ∧ T.flatten = encode kept)
    ∧ (∀ b, 0x80 ≤ b → byteToString b = [0xC0 + b / 64, 0x80 + b % 64])
    ∧ (∀ s, encode s = s ↔ isAscii s) := by
  refine ⟨?_, ?_, ?_⟩
  · have hinv : EncodeInv ([] ++ cmd) (cmd.foldl step Vars.init) :=
      encodeInv_foldl cmd [] Vars.init
        ⟨⟨[], by simpa using DeletesOnly.nil, by simp [Vars.init, encode]⟩, Or.inl rfl⟩
    rw [List.nil_append] at hinv
    obtain ⟨⟨kept, hd, hk⟩, _⟩ := hinv
    refine ⟨kept, hd, ?_⟩
    unfold parseCommandLine at h
    generalize cmd.foldl step Vars.init = l at h hk
    unfold finish at h
    split_ifs at h with hq hcur
    · simp at h
    · rw [← (Prod.mk.inj h).1, ← hk]
      simp
    · rw [← (Prod.mk.inj h).1, ← hk]
      have : l.current = [] := not_not.1 hcur
      simp [this]
  · intro b hb
    have : ¬ b < 0x80 := by omega
    simp [byteToString, this]
  · intro s
    exact ⟨fun h => isAscii_of_encode_length s (by rw [h]), encode_ascii⟩

theorem parseCommandLine_encode_witness :
    parseCommandLine (ascii "-k " ++ [0xC3, 0xA9])
        = ([ascii "-k", [0xC3, 0x83, 0xC2, 0xA9]], none)
    ∧ ((∃ kept, DeletesOnly (ascii "-k " ++ [0xC3, 0xA9]) kept
          ∧ [ascii "-k", [0xC3, 0x83, 0xC2, 0xA9]].flatten = encode kept)
      ∧ (∀ b, 0x80 ≤ b → byteToString b = [0xC0 + b / 64, 0x80 + b % 64])
      ∧ (∀ s, encode s = s ↔ isAscii s)) :=
  ⟨by decide, parseCommandLine_encode (ascii "-k " ++ [0xC3, 0xA9])
    [ascii "-k", [0xC3, 0x83, 0xC2, 0xA9]] (by decide)⟩

/-! ## The default options -/

/-- C19: with the default values of `setup`, and the default bind address
resolving and `notset` not parsing as an IP, `validateFlags` fails with the
invalid-endpoint error for `notset`; and whenever `validateFlags` succeeds, the
endpoint is not this default. -/
theorem validateFlags_default (resolveTCPAddr parseIP : GoString → Bool)
    (hbind : resolveTCPAddr (ascii "127.0.0.1:8086") = true)
    (hip : parseIP (ascii "notset") = false) :
    defaultFlags = ⟨false, ascii "127.0.0.1:8086", ascii "notset", ascii "notset", [], false,
        false, false, 1000⟩
    ∧ validateFlags resolveTCPAddr parseIP defaultFlags
      = some (ValidateError.invalidEndpoint (ascii "notset"))
    ∧ ∀ f : Flags, validateFlags resolveTCPAddr parseIP f = none →
        f.Endpoint ≠ defaultFlags.Endpoint := by
  refine ⟨rfl, ?_, ?_⟩
  · have h1 : resolveTCPAddr defaultFlags.BindAddress = true := hbind
    have h2 : parseIP defaultFlags.Endpoint = false := hip
    unfold validateFlags
    rw [h1, h2]
    simp
    rfl
  · intro f hf hEq
    have h2 : parseIP f.Endpoint = false := by rw [hEq]; exact hip
    unfold validateFlags at hf
    split_ifs at hf

theorem validateFlags_default_witness :
    (exampleEnv.resolveTCPAddr (ascii "127.0.0.1:8086") = true
      ∧ exampleEnv.parseIP (ascii "notset") = false)
    ∧ (defaultFlags = ⟨false, ascii "127.0.0.1:8086", ascii "notset", ascii "notset", [],
          false, false, false, 1000⟩
      ∧ validateFlags exampleEnv.resolveTCPAddr exampleEnv.parseIP defaultFlags
        = some (ValidateError.invalidEndpoint (ascii "notset"))
      ∧ ∀ f : Flags, validateFlags exampleEnv.resolveTCPAddr exampleEnv.parseIP f = none →
          f.Endpoint ≠ defaultFlags.Endpoint) :=
  ⟨by decide, validateFlags_default exampleEnv.resolveTCPAddr exampleEnv.parseIP (by decide)
    (by decide)⟩

/-! ## The function Run: results -/

theorem register_none (names defined d : List GoString)
    (h : register defined names = (d, none)) : d = defined ++ names := by
  induction names generalizing defined with
  | nil =>
    simp only [register, Prod.mk.injEq] at h
    simp [h.1]
  | cons n ns ih =>
    unfold register at h
    split_ifs at h with hn
    · simp at h
    · rw [ih (defined ++ [n]) h]
      simp

theorem Run_parse_error {E : Type} (env : Env E) (i : Instance) (w : World)
    (T : List GoString) (msg : GoString)
    (hT : parseCommandLine (ascii "run " ++ i.args) = (T, some msg)) :
    Run env i w = (w, Outcome.returned (some (RunError.parse msg))) := by
  unfold Run
  rw [hT]

theorem setup_done (flagParse : List GoString → Flags → ParseOutcome) (w : World)
    (d : List GoString) (f : Flags) (hreg : register w.defined flagNames = (d, none))
    (hparse : flagParse (w.osArgs.drop 1) defaultFlags = ParseOutcome.parsed f) :
    setup flagParse w = ({ w with defined := w.defined ++ flagNames }, SetupResult.done f) := by
  have hd := register_none flagNames w.defined d hreg
  unfold setup
  rw [hreg]
  simp only
  rw [hparse, hd]

/-- The call of `Run` once the tokenizer has succeeded, the flags have been
defined and `flag.Parse()` has come back with the flags `f`. -/
theorem Run_parsed {E : Type} (env : Env E) (i : Instance) (w : World)
    (T d : List GoString) (f : Flags)
    (hT : parseCommandLine (ascii "run " ++ i.args) = (T, none))
    (hreg : register w.defined flagNames = (d, none))
    (hparse : env.flagParse (T.drop 1) defaultFlags = ParseOutcome.parsed f) :
    Run env i w =
      match validateFlags env.resolveTCPAddr env.parseIP f with
      | some e =>
        (⟨T, w.defined ++ flagNames, w.calls⟩,
          Outcome.returned (some (RunError.validation e)))
      | none =>
        (⟨T, w.defined ++ flagNames, w.calls ++ [warpArgs f]⟩,
          Outcome.returned ((env.runWarp (warpArgs f)).map RunError.collaborator)) := by
  unfold Run
  rw [hT]
  simp only
  rw [setup_done env.flagParse { w with osArgs := T } d f hreg hparse]
  simp only
  cases validateFlags env.resolveTCPAddr env.parseIP f with
  | some e => rfl
  | none =>
    simp only
    cases env.runWarp (warpArgs f) <;> rfl

/-- The calls of the collaborator after `Run`: those before it, and at most
one more, made with flags that `flag.Parse()` gave and `validateFlags`
accepted. -/
theorem Run_calls {E : Type} (env : Env E) (i : Instance) (w : World) :
    (Run env i w).1.calls = w.calls
    ∨ ∃ T f, parseCommandLine (ascii "run " ++ i.args) = (T, none)
        ∧ env.flagParse (T.drop 1) defaultFlags = ParseOutcome.parsed f
        ∧ validateFlags env.resolveTCPAddr env.parseIP f = none
        ∧ (Run env i w).1.calls = w.calls ++ [warpArgs f] := by
  rcases hT : parseCommandLine (ascii "run " ++ i.args) with ⟨T, _ | msg⟩
  · rcases hreg : register w.defined flagNames with ⟨d, _ | n⟩
    · rcases hparse : env.flagParse (T.drop 1) defaultFlags with f | status
      · rcases hval : validateFlags env.resolveTCPAddr env.parseIP f with _ | e
        · right
          refine ⟨T, f, rfl, hparse, hval, ?_⟩
          rw [Run_parsed env i w T d f hT hreg hparse, hval]
        · left
          rw [Run_parsed env i w T d f hT hreg hparse, hval]
      · left
        unfold Run
        rw [hT]
        simp only [setup]
        rw [hreg]
        simp only
        rw [hparse]
    · left
      unfold Run
      rw [hT]
      simp only [setup]
      rw [hreg]
  · left
    rw [Run_parse_error env i w T msg hT]

/-- C11: when the tokenizer fails on `run ` followed by the arguments, `Run`
returns the parse error and the collaborator is not called; when
`validateFlags` rejects the flags that `flag.Parse()` gave, `Run` returns the
validation error and the collaborator is not called; and in every case `Run`
calls the collaborator at most once, and only with flags that `validateFlags`
accepted. -/
theorem Run_errors_before_collaborator {E : Type} (env : Env E) (i : Instance) (w : World) :
    (∀ T msg, parseCommandLine (ascii "run " ++ i.args) = (T, some msg) →
      (Run env i w).2 = Outcome.returned (some (RunError.parse msg))
        ∧ (Run env i w).1.calls = w.calls)
    ∧ (∀ T d f e, parseCommandLine (ascii "run " ++ i.args) = (T, none) →
      register w.defined flagNames = (d, none) →
      env.flagParse (T.drop 1) defaultFlags = ParseOutcome.parsed f →
      validateFlags env.resolveTCPAddr env.parseIP f = some e →
      (Run env i w).2 = Outcome.returned (some (RunError.validation e))
        ∧ (Run env i w).1.calls = w.calls)
    ∧ ((Run env i w).1.calls = w.calls
      ∨ ∃ T f, parseCommandLine (ascii "run " ++ i.args) = (T, none)
          ∧ env.flagParse (T.drop 1) defaultFlags = ParseOutcome.parsed f
          ∧ validateFlags env.resolveTCPAddr env.parseIP f = none
          ∧ (Run env i w).1.calls = w.calls ++ [warpArgs f]) := by
  refine ⟨?_, ?_, Run_calls env i w⟩
  · intro T msg hT
    rw [Run_parse_error env i w T msg hT]
    exact ⟨rfl, rfl⟩
  · intro T d f e hT hreg hparse hval
    rw [Run_parsed env i w T d f hT hreg hparse, hval]
    exact ⟨rfl, rfl⟩

theorem Run_errors_before_collaborator_witness :
    (Run exampleEnv ⟨ascii "-e x"⟩ ⟨[ascii "app"], [], []⟩).2
        = Outcome.returned (some (RunError.validation
            (ValidateError.invalidEndpoint (ascii "x"))))
      ∧ (Run exampleEnv ⟨ascii "-e x"⟩ ⟨[ascii "app"], [], []⟩).1.calls = [] :=
  (Run_errors_before_collaborator exampleEnv ⟨ascii "-e x"⟩ ⟨[ascii "app"], [], []⟩).2.1
    [ascii "run", ascii "-e", ascii "x"] flagNames
    { defaultFlags with Endpoint := ascii "x" }
    (ValidateError.invalidEndpoint (ascii "x")) (by decide) (by decide) (by decide)
    (by decide)

/-- C12: when the tokenizer succeeds, the flags are defined, `flag.Parse()`
comes back with the flags `f` and `validateFlags` accepts them, `Run` calls
the collaborator once, with `PsiphonEnabled`, `Gool`, `Scan`, `Verbose`,
`Country`, `BindAddress`, `Endpoint`, `License` and `Rtt` of `f` in this
order, and returns what the call returns: nil for nil, and else the error of
the collaborator itself. -/
theorem Run_returns_collaborator {E : Type} (env : Env E) (i : Instance) (w : World)
    (T d : List GoString) (f : Flags)
    (hT : parseCommandLine (ascii "run " ++ i.args) = (T, none))
    (hreg : register w.defined flagNames = (d, none))
    (hparse : env.flagParse (T.drop 1) defaultFlags = ParseOutcome.parsed f)
    (hval : validateFlags env.resolveTCPAddr env.parseIP f = none) :
    (Run env i w).1.calls
        = w.calls ++ [⟨f.PsiphonEnabled, f.Gool, f.Scan, f.Verbose, f.Country,
            f.BindAddress, f.Endpoint, f.License, f.Rtt⟩]
    ∧ (∀ e, env.runWarp ⟨f.PsiphonEnabled, f.Gool, f.Scan, f.Verbose, f.Country,
            f.BindAddress, f.Endpoint, f.License, f.Rtt⟩ = some e →
        (Run env i w).2 = Outcome.returned (some (RunError.collaborator e)))
    ∧ (env.runWarp ⟨f.PsiphonEnabled, f.Gool, f.Scan, f.Verbose, f.Country,
            f.BindAddress, f.Endpoint, f.License, f.Rtt⟩ = none →
        (Run env i w).2 = Outcome.returned none) := by
  rw [Run_parsed env i w T d f hT hreg hparse, hval]
  refine ⟨rfl, ?_, ?_⟩
  · intro e he
    show Outcome.returned ((env.runWarp (warpArgs f)).map RunError.collaborator) = _
    rw [show warpArgs f = ⟨f.PsiphonEnabled, f.Gool, f.Scan, f.Verbose, f.Country,
      f.BindAddress, f.Endpoint, f.License, f.Rtt⟩ from rfl, he]
    rfl
  · intro he
    show Outcome.returned ((env.runWarp (warpArgs f)).map RunError.collaborator) = _
    rw [show warpArgs f = ⟨f.PsiphonEnabled, f.Gool, f.Scan, f.Verbose, f.Country,
      f.BindAddress, f.Endpoint, f.License, f.Rtt⟩ from rfl, he]
    rfl

theorem Run_returns_collaborator_witness :
    (Run { exampleEnv with runWarp := fun _ => some () } ⟨ascii "-e 1.1.1.1"⟩
        ⟨[ascii "app"], [], []⟩).1.calls
      = [⟨false, false, false, false, [], ascii "127.0.0.1:8086", ascii "1.1.1.1",
          ascii "notset", 1000⟩]
    ∧ (Run { exampleEnv with runWarp := fun _ => some () } ⟨ascii "-e 1.1.1.1"⟩
        ⟨[ascii "app"], [], []⟩).2
      = Outcome.returned (some (RunError.collaborator ())) :=
  have h := Run_returns_collaborator { exampleEnv with runWarp := fun _ => some () }
    ⟨ascii "-e 1.1.1.1"⟩ ⟨[ascii "app"], [], []⟩ [ascii "run", ascii "-e", ascii "1.1.1.1"]
    flagNames { defaultFlags with Endpoint := ascii "1.1.1.1" } (by decide) (by decide)
    (by decide) (by decide)
  ⟨h.1, h.2.1 () rfl⟩

/-- C13, as the code has it: a `Run` that fails with the tokenizer error
changes no state, so a later `Run` does what it would have done as the first;
a `Run` that fails with a validator error has by then put the tokens into
`os.Args` and defined the nine flags of `setup` on the global flag set. -/
theorem Run_state_after_error {E : Type} (env : Env E) (i : Instance) (w : World) :
    (∀ T msg, parseCommandLine (ascii "run " ++ i.args) = (T, some msg) →
      (Run env i w).1 = w ∧ ∀ j : Instance, Run env j (Run env i w).1 = Run env j w)
    ∧ (∀ T d f e, parseCommandLine (ascii "run " ++ i.args) = (T, none) →
      register w.defined flagNames = (d, none) →
      env.flagParse (T.drop 1) defaultFlags = ParseOutcome.parsed f →
      validateFlags env.resolveTCPAddr env.parseIP f = some e →
      (Run env i w).2 = Outcome.returned (some (RunError.validation e))
        ∧ (Run env i w).1 = ⟨T, w.defined ++ flagNames, w.calls⟩) := by
  constructor
  · intro T msg hT
    rw [Run_parse_error env i w T msg hT]
    exact ⟨rfl, fun _ => rfl⟩
  · intro T d f e hT hreg hparse hval
    rw [Run_parsed env i w T d f hT hreg hparse, hval]
    exact ⟨rfl, rfl⟩

theorem Run_state_after_error_witness :
    (Run exampleEnv ⟨ascii "-k " ++ [0x22]⟩ ⟨[ascii "app"], [], []⟩).1
        = ⟨[ascii "app"], [], []⟩
      ∧ ∀ j : Instance,
          Run exampleEnv j (Run exampleEnv ⟨ascii "-k " ++ [0x22]⟩ ⟨[ascii "app"], [], []⟩).1
            = Run exampleEnv j ⟨[ascii "app"], [], []⟩ :=
  (Run_state_after_error exampleEnv ⟨ascii "-k " ++ [0x22]⟩ ⟨[ascii "app"], [], []⟩).1 []
    (unclosedQuoteMsg (ascii "run -k " ++ [0x22])) (by decide)

/-- C13 fails as stated: in a process with `os.Args` holding `app` and no flag
defined, `Run` with empty arguments fails with the validator error for the
endpoint `notset`, and afterwards `os.Args` holds `run` and the nine flags are
defined; a later `Run` with `-e 1.1.1.1` panics on defining the flag `v` once
more, whereas as the first `Run` it calls the collaborator and returns nil. -/
theorem Run_state_counterexample :
    Run exampleEnv ⟨[]⟩ ⟨[ascii "app"], [], []⟩
      = (⟨[ascii "run"], flagNames, []⟩,
          Outcome.returned (some (RunError.validation
            (ValidateError.invalidEndpoint (ascii "notset")))))
    ∧ (⟨[ascii "run"], flagNames, []⟩ : World) ≠ ⟨[ascii "app"], [], []⟩
    ∧ (Run exampleEnv ⟨ascii "-e 1.1.1.1"⟩ ⟨[ascii "run"], flagNames, []⟩).2
      = Outcome.panicked (ascii "v")
    ∧ (Run exampleEnv ⟨ascii "-e 1.1.1.1"⟩ ⟨[ascii "app"], [], []⟩).2
      = Outcome.returned none := by
  decide

/-! ## Flags that are not defined -/

/-- C14 at the arguments `-x`: the token `-x` is no key of `validFlags`, and
`Run`, in a process with no flag defined yet, returns no error for it: the
tokens `run` and `-x` go to `os.Args`, the nine flags are defined, and when
`flag.Parse()` exits on the undefined flag the process ends with that status,
the collaborator not called. -/
theorem Run_undefined_flag {E : Type} (env : Env E) (w : World) (status : Nat)
    (hw : w.defined = [])
    (hexit : env.flagParse [ascii "-x"] defaultFlags = ParseOutcome.exited status) :
    mapIndex validFlags (ascii "-x") = false
    ∧ Run env ⟨ascii "-x"⟩ w
      = (⟨[ascii "run", ascii "-x"], flagNames, w.calls⟩, Outcome.exited status) := by
  refine ⟨by decide, ?_⟩
  have hT : parseCommandLine (ascii "run " ++ (⟨ascii "-x"⟩ : Instance).args)
      = ([ascii "run", ascii "-x"], none) := by decide
  have hreg : register w.defined flagNames = (flagNames, none) := by
    rw [hw]; decide
  unfold Run
  rw [hT]
  simp only [setup]
  rw [hreg]
  simp only [List.drop_succ_cons, List.drop_zero]
  rw [hexit]

theorem Run_undefined_flag_witness :
    ((⟨[ascii "app"], [], []⟩ : World).defined = []
      ∧ exampleEnv.flagParse [ascii "-x"] defaultFlags = ParseOutcome.exited 2)
    ∧ (mapIndex validFlags (ascii "-x") = false
      ∧ Run exampleEnv ⟨ascii "-x"⟩ ⟨[ascii "app"], [], []⟩
        = (⟨[ascii "run", ascii "-x"], flagNames, []⟩, Outcome.exited 2)) :=
  ⟨by decide, Run_undefined_flag exampleEnv ⟨[ascii "app"], [], []⟩ 2 rfl (by decide)⟩

end WG
